import Mathlib

/-!
Shallow embedding of the repository CSV utilities.

The first part embeds src/dokumentimportoptimizer.py: the canonical schema
EXPECTED_COLUMNS, header cleaning and matching (get_column_mapping), the
per-row reshaping into canonical column order (process_csv lines 207-257),
the AcCode rewriting with its once-per-run token solicitation (lines
219-243), the multi-row header handling (lines 158-200), the split
confirmation (lines 310-316) and the chunk splitting (lines 319-349).

The second part embeds src/csvRepair_NoLineBreaks.py: the three line-break
replacements (lines 67-88), the semicolon substitution with its count and
line/column report (lines 92-124), and the repeated stripping of a trailing
marker token.

Rows are lists of strings, Python dicts are association lists updated in
place (insertion order preserved, as in Python), and machine text is the
Lean String type, whose underlying data is a list of characters.
-/

/-- Whitespace characters stripped by Python str.strip (ASCII subset). -/
def isPySpace (c : Char) : Bool :=
  c = ' ' || c = '\t' || c = '\n' || c = '\r' || c = Char.ofNat 11 || c = Char.ofNat 12

/-- Python str.strip on a character list: drop whitespace from both ends. -/
def pyStrip (s : List Char) : List Char :=
  ((s.dropWhile isPySpace).reverse.dropWhile isPySpace).reverse

/-- Python str.lstrip applied to the byte-order mark: drop every leading BOM. -/
def lstripBOM (s : List Char) : List Char :=
  s.dropWhile (fun c => c = '\uFEFF')

/-- Cleaning done in get_column_mapping: header_col.strip().lstrip(BOM). -/
def cleanHeader (s : String) : String :=
  ⟨lstripBOM (pyStrip s.data)⟩

/-- EXPECTED_COLUMNS from src/dokumentimportoptimizer.py lines 23-36. -/
def EXPECTED_COLUMNS : List (List String) :=
  [ ["DokumentUrl*", "Document url*", "URL du document*"],
    ["Verknüpfungsart*", "Url type*", "Type de lien*"],
    ["Abonnements", "Subscriptions"],
    ["Dokumentbeschreibung", "Document description", "Descriptif des documents"],
    ["Sprache*", "Language*", "Langue*"],
    ["Dokumenttyp*", "Document type*", "Type de document*"],
    ["Dokumentnummer", "Document identifier", "Indice du document"],
    ["Ausgabedatum", "Publication date", "Date de publication"],
    ["AcCode*"],
    ["ID"],
    ["Hosted Datei ID", "Hosted file ID", "ID du fichier hébergé"],
    ["Löschen", "Delete", "Supprimer"] ]

/-- standard_columns: the first variant of every expected column. -/
def standard_columns : List String :=
  EXPECTED_COLUMNS.map (fun v => v.headD "")

/-- ROWS_PER_CHUNK constant (line 19). -/
def ROWS_PER_CHUNK : Nat := 3800

/-- Inner loop of get_column_mapping: find the first column spec whose
variant list contains the cleaned header cell and return its first variant. -/
def matchColumn (h : String) : Option String :=
  (EXPECTED_COLUMNS.find? (fun specs => specs.contains (cleanHeader h))).map
    (fun specs => specs.headD "")

/-- Lookup in a Python dict modelled as an association list. -/
def dictGet : List (String × String) → String → Option String
  | [], _ => none
  | p :: d, k => if p.1 = k then some p.2 else dictGet d k

/-- Assignment d[k] = v in a Python dict: replace in place if the key is
present, otherwise append at the end (insertion order semantics). -/
def insertDict : List (String × String) → String → String → List (String × String)
  | [], k, v => [(k, v)]
  | p :: d, k, v => if p.1 = k then (k, v) :: d else p :: insertDict d k v

/-- One iteration of the mapping loop of get_column_mapping: a matching
raw header cell is assigned column_mapping[header_col] = variations[0]. -/
def cmStep (m : List (String × String)) (h : String) : List (String × String) :=
  match matchColumn h with
  | some c => insertDict m h c
  | none => m

/-- column_mapping built by get_column_mapping lines 56-65. -/
def columnMapping (header_row : List String) : List (String × String) :=
  header_row.foldl cmStep []

/-- One iteration of the row_data loop of process_csv lines 212-217. -/
def rdStep (header : List String) (rd : List (String × String))
    (hv : String × String) : List (String × String) :=
  match dictGet (columnMapping header) hv.1 with
  | some c => insertDict rd c hv.2
  | none => rd

/-- row_data built in process_csv lines 210-217: for each position i of the
row with i below the header length, if the raw header at i is a key of
column_mapping, assign row_data[column_mapping[header_i]] = value. -/
def buildRowData (header row : List String) : List (String × String) :=
  (header.zip row).foldl (rdStep header) []

/-- new_row built in process_csv lines 245-257: one cell per standard
column, the ID cell blanked, missing columns backfilled with empty. -/
def mkNewRow (rd : List (String × String)) : List String :=
  standard_columns.map (fun c =>
    match dictGet rd c with
    | some v => if c = "ID" then "" else v
    | none => "")

/-- Reshaping of one data row without the AcCode rewriting. -/
def reshapeRow (header row : List String) : List String :=
  mkNewRow (buildRowData header row)

/-- Test whether the AcCode value begins with the marker CS
(ac_code.startswith applied to that marker, line 222). -/
def startsWithCS (ac : String) : Bool :=
  ['C', 'S'].isPrefixOf ac.data

/-- Python slice ac_code[n:] at the character level. -/
def strDrop (s : String) (n : Nat) : String :=
  ⟨s.data.drop n⟩

/-- Python str.strip on a String. -/
def pyStripS (s : String) : String :=
  ⟨pyStrip s.data⟩

/-- The solicitation loop of lines 227-232: read lines from the interactive
input stream until one strips to exactly 3 characters; an exhausted stream
is the EOFError case and yields no token. -/
def solicitToken : List String → Option String
  | [] => none
  | line :: rest =>
    let t := pyStripS line
    if t.length = 3 then some t else solicitToken rest

/-- State of the nautos_code global: none models None (never asked),
some none models False (solicitation failed or skipped), some (some t)
models a cached 3-character token t. -/
abbrev TokenState := Option (Option String)

/-- AcCode processing of one row_data dict (lines 219-243): when the
AcCode cell starts with CS, solicit the token once if still unasked, then
splice CS + token + N with the suffix from character offset 6 whenever the
original value has at least 6 characters. -/
def acCodeAdjust (inputs : List String) (st : TokenState)
    (rd : List (String × String)) : TokenState × List (String × String) :=
  match dictGet rd "AcCode*" with
  | none => (st, rd)
  | some ac =>
    if ac ≠ "" ∧ startsWithCS ac = true then
      let st2 : TokenState :=
        match st with
        | none => some (solicitToken inputs)
        | some x => some x
      match st2 with
      | some (some t) =>
        if 6 ≤ ac.length then
          (st2, insertDict rd "AcCode*" ("CS" ++ t ++ "N" ++ strDrop ac 6))
        else (st2, rd)
      | _ => (st2, rd)
    else (st, rd)

/-- Processing of one data row: build row_data, run the AcCode step, then
fill the new row in standard column order. -/
def processDataRow (inputs header : List String) (st : TokenState)
    (row : List String) : TokenState × List String :=
  let rd := buildRowData header row
  let sr := acCodeAdjust inputs st rd
  (sr.1, mkNewRow sr.2)

/-- The loop over data rows of process_csv, threading the nautos_code
state from row to row. -/
def processDataRows (inputs header : List String) :
    TokenState → List (List String) → TokenState × List (List String)
  | st, [] => (st, [])
  | st, r :: rs =>
    let sr := processDataRow inputs header st r
    let srs := processDataRows inputs header sr.1 rs
    (srs.1, sr.2 :: srs.2)

/-- Lowercasing as in str.lower (ASCII model). -/
def pyLower (s : String) : String :=
  ⟨s.data.map Char.toLower⟩

/-- Substring test: does the pattern occur contiguously in the list. -/
def hasSubstr (pat : List Char) : List Char → Bool
  | [] => pat.isPrefixOf []
  | c :: rest => pat.isPrefixOf (c :: rest) || hasSubstr pat rest

/-- Detection of translated header rows (lines 163-165): a row looks like a
header when no cell contains the substring http after lowercasing. -/
def rowLooksHeader (row : List String) : Bool :=
  !(row.any (fun v => hasSubstr "http".data (pyLower v).data))

/-- header_rows_count computation of lines 158-169. -/
def headerRowsCount (rows : List (List String)) : Nat :=
  if 3 ≤ rows.length then
    if (0 < rows.length - 1 ∧ rowLooksHeader (rows.getD 1 []) = true)
        ∧ (0 < rows.length - 2 ∧ rowLooksHeader (rows.getD 2 []) = true) then 3
    else 1
  else 1

/-- Search of lines 177-179: index of the first original header cell whose
cleaned value is one of the given variants. -/
def findOrigIdx (original_header : List String) (variations : List String) : Option Nat :=
  (original_header.enum.find? (fun ih => variations.contains (cleanHeader ih.2))).map
    (fun ih => ih.1)

/-- One output header cell (lines 174-198). -/
def headerCell (rows : List (List String)) (original_header : List String)
    (header_idx : Nat) (variations : List String) : String :=
  match findOrigIdx original_header variations with
  | some oi =>
    if header_idx < rows.length ∧ oi < (rows.getD header_idx []).length then
      (rows.getD header_idx []).getD oi ""
    else if header_idx < variations.length then variations.getD header_idx ""
    else variations.headD ""
  | none =>
    if header_idx < variations.length then variations.getD header_idx ""
    else variations.headD ""

/-- The rebuilt header rows (lines 171-200). -/
def mkHeaderRows (rows : List (List String)) (hc : Nat) : List (List String) :=
  (List.range hc).map (fun hi =>
    EXPECTED_COLUMNS.map (fun v => headerCell rows (rows.headD []) hi v))

/-- Split confirmation of lines 310-316: an exhausted interactive stream is
the EOFError case and refuses the split; otherwise the stripped lowercased
answer must be one of the accepting words. -/
def shouldSplit : List String → Bool
  | [] => false
  | r :: _ => ["", "j", "ja", "y", "yes"].contains (pyLower (pyStripS r))

/-- Chunk construction of lines 319-344: ceil-many groups of
ROWS_PER_CHUNK data rows, each chunk re-prefixed with the header rows. -/
def makeChunks (header_rows data_rows : List (List String)) :
    List (List (List String)) :=
  (List.range ((data_rows.length + ROWS_PER_CHUNK - 1) / ROWS_PER_CHUNK)).map
    (fun i => header_rows ++ ((data_rows.drop (i * ROWS_PER_CHUNK)).take ROWS_PER_CHUNK))

/-- The row-level core of process_csv after parsing: rebuild the header
rows, reshape every data row with the AcCode step threaded through, and,
when the written file is oversized and the split is confirmed, produce the
chunk files. Returns the processed rows, the optional chunks, and the
success flag returned by process_csv. -/
def process_rows (tokenInputs splitInputs : List String)
    (rows : List (List String)) (oversized : Bool) :
    List (List String) × Option (List (List (List String))) × Bool :=
  if rows.length < 1 then ([], none, false)
  else
    let original_header := rows.headD []
    let hc := headerRowsCount rows
    let headerOut := mkHeaderRows rows hc
    let dataOut := (processDataRows tokenInputs original_header none (rows.drop hc)).2
    let chunks :=
      if oversized then
        if shouldSplit splitInputs = true then some (makeChunks headerOut dataOut)
        else none
      else none
    (headerOut ++ dataOut, chunks, true)

/-- Marker token inserted for a line break, with its bounding spaces. -/
def brMark : List Char := [' ', '<', 'b', 'r', '>', ' ']

/-- field.replace of the two-character break CRLF by the marker
(src/csvRepair_NoLineBreaks.py line 74), specialised to its pattern:
left to right, non overlapping. -/
def replaceCRLF : List Char → List Char
  | [] => []
  | [c] => [c]
  | c1 :: c2 :: rest =>
    if c1 = '\r' ∧ c2 = '\n' then brMark ++ replaceCRLF rest
    else c1 :: replaceCRLF (c2 :: rest)

/-- field.replace of LF by the marker (line 78). -/
def replaceLF : List Char → List Char
  | [] => []
  | c :: rest => if c = '\n' then brMark ++ replaceLF rest else c :: replaceLF rest

/-- field.replace of CR by the marker (line 82). -/
def replaceCR : List Char → List Char
  | [] => []
  | c :: rest => if c = '\r' then brMark ++ replaceCR rest else c :: replaceCR rest

/-- The first pass over a field (lines 72-82): CRLF first, then LF, then CR. -/
def normalizeBreaks (s : List Char) : List Char :=
  replaceCR (replaceLF (replaceCRLF s))

/-- Drop trailing whitespace characters. -/
def rdropSpace (s : List Char) : List Char :=
  (s.reverse.dropWhile isPySpace).reverse

/-- One re.sub of the anchored pattern whitespace* <br> whitespace* at the
end of the field (line 111): strip trailing whitespace, and when a literal
<br> is then exposed at the end, remove it together with the whitespace run
before it; otherwise the field is unchanged. -/
def rstripBrStep (s : List Char) : List Char :=
  let t := rdropSpace s
  if ['<', 'b', 'r', '>'].isSuffixOf t = true then
    rdropSpace (t.take (t.length - 4))
  else s

/-- The fixpoint loop of lines 110-115, with fuel bounded by the length of
the field (every productive step removes at least four characters). -/
def rstripBrFuel : Nat → List Char → List Char
  | 0, s => s
  | n + 1, s =>
    let s2 := rstripBrStep s
    if s2 = s then s else rstripBrFuel n s2

/-- Repeated removal of a trailing marker until none remains. -/
def rstripBr (s : List Char) : List Char :=
  rstripBrFuel s.length s

/-- Semicolon substitution of lines 102-107: when the field contains a
semicolon, replace every semicolon by a colon and count the occurrences. -/
def semicolonFix (field : List Char) : List Char × Nat :=
  if ';' ∈ field then
    (field.map (fun c => if c = ';' then ':' else c), field.count ';')
  else (field, 0)

/-- The complete processing of one field by csvRepair_NoLineBreaks:
break replacement, semicolon substitution, trailing marker stripping. -/
def processField (f : List Char) : List Char :=
  rstripBr (semicolonFix (normalizeBreaks f)).1

/-- Field preview recorded for the semicolon report (line 105). -/
def semicolonPreview (f : List Char) : List Char :=
  if 50 < f.length then f.take 50 ++ ['.', '.', '.'] else f

/-- rows_with_semicolons of lines 95-105: one entry (line, column, preview)
per field containing a semicolon, both coordinates 1-based. -/
def semicolonReport (rows : List (List String)) : List (Nat × Nat × String) :=
  (rows.enum.map (fun nr =>
    nr.2.enum.filterMap (fun cf =>
      if ';' ∈ cf.2.data then some (nr.1 + 1, cf.1 + 1, (⟨semicolonPreview cf.2.data⟩ : String))
      else none))).flatten

/-- semicolon_replacements total of lines 102-104. -/
def semicolonTotal (rows : List (List String)) : Nat :=
  (rows.map (fun row => (row.map (fun f => (semicolonFix f.data).2)).sum)).sum

/-- Delimiter detection of line 118 of the optimizer and line 55 of the
repair script: semicolon when the 1024-character sample contains one,
comma otherwise. -/
def detectDelimiter (text : List Char) : Char :=
  if ';' ∈ text.take 1024 then ';' else ','

/-! Dictionary lemmas. -/

theorem dictGet_insert (d : List (String × String)) (k v k2 : String) :
    dictGet (insertDict d k v) k2 = if k2 = k then some v else dictGet d k2 := by
  induction d with
  | nil =>
    simp only [insertDict, dictGet]
    by_cases h : k2 = k
    · subst h; simp
    · rw [if_neg (fun hh => h hh.symm), if_neg h]
  | cons p d ih =>
    simp only [insertDict]
    by_cases hp : p.1 = k
    · rw [if_pos hp]
      simp only [dictGet]
      by_cases h2 : k2 = k
      · subst h2; simp
      · rw [if_neg (fun hh => h2 hh.symm), if_neg h2, if_neg (fun hh => h2 (hp ▸ hh).symm)]
    · rw [if_neg hp]
      simp only [dictGet]
      by_cases hpk : p.1 = k2
      · rw [if_pos hpk, if_pos hpk, if_neg (fun hh : k2 = k => hp (hpk.trans hh))]
      · rw [if_neg hpk, if_neg hpk, ih]

theorem mem_keys_insertDict {d : List (String × String)} {k v a : String}
    (h : a ∈ (insertDict d k v).map Prod.fst) : a ∈ d.map Prod.fst ∨ a = k := by
  induction d with
  | nil => simp only [insertDict, List.map_cons, List.map_nil] at h; simpa using h
  | cons p d ih =>
    simp only [insertDict] at h
    by_cases hp : p.1 = k
    · rw [if_pos hp] at h
      rcases List.mem_cons.mp h with h1 | h1
      · exact Or.inr h1
      · exact Or.inl (List.mem_cons_of_mem _ h1)
    · rw [if_neg hp] at h
      rcases List.mem_cons.mp h with h1 | h1
      · exact Or.inl (h1 ▸ List.mem_cons_self _ _)
      · rcases ih h1 with h2 | h2
        · exact Or.inl (List.mem_cons_of_mem _ h2)
        · exact Or.inr h2

theorem insertDict_keys_nodup {d : List (String × String)} (k v : String)
    (h : (d.map Prod.fst).Nodup) : ((insertDict d k v).map Prod.fst).Nodup := by
  induction d with
  | nil => simp [insertDict]
  | cons p d ih =>
    simp only [insertDict]
    by_cases hp : p.1 = k
    · rw [if_pos hp]
      simpa [hp] using h
    · rw [if_neg hp]
      simp only [List.map_cons, List.nodup_cons] at h ⊢
      refine ⟨fun hmem => ?_, ih h.2⟩
      rcases mem_keys_insertDict hmem with h1 | h1
      · exact h.1 h1
      · exact hp h1

/-! column_mapping lookup lemmas. -/

theorem cm_foldl_sound (hs : List String) :
    ∀ (m : List (String × String)),
      (∀ k, dictGet m k = none ∨ dictGet m k = matchColumn k) →
      ∀ k, dictGet (hs.foldl cmStep m) k = none ∨
        dictGet (hs.foldl cmStep m) k = matchColumn k := by
  induction hs with
  | nil => intro m hm k; exact hm k
  | cons h hs ih =>
    intro m hm k
    simp only [List.foldl_cons]
    apply ih
    intro k2
    unfold cmStep
    cases hmc : matchColumn h with
    | none => exact hm k2
    | some c =>
      rw [dictGet_insert]
      by_cases hk : k2 = h
      · subst hk; rw [if_pos rfl]; exact Or.inr hmc.symm
      · rw [if_neg hk]; exact hm k2

theorem cm_foldl_persist (hs : List String) :
    ∀ (m : List (String × String)) (k : String), dictGet m k ≠ none →
      dictGet (hs.foldl cmStep m) k ≠ none := by
  induction hs with
  | nil => intro m k hk; exact hk
  | cons h hs ih =>
    intro m k hk
    simp only [List.foldl_cons]
    apply ih
    unfold cmStep
    cases matchColumn h with
    | none => exact hk
    | some c =>
      rw [dictGet_insert]
      by_cases h2 : k = h
      · rw [if_pos h2]; exact fun hh => Option.noConfusion hh
      · rw [if_neg h2]; exact hk

theorem cm_foldl_complete (hs : List String) :
    ∀ (m : List (String × String)) (h : String) (c : String), h ∈ hs →
      matchColumn h = some c → dictGet (hs.foldl cmStep m) h ≠ none := by
  induction hs with
  | nil => intro m h c hm; exact absurd hm (List.not_mem_nil h)
  | cons h2 hs ih =>
    intro m h c hm hmc
    simp only [List.foldl_cons]
    rcases List.mem_cons.mp hm with h1 | h1
    · subst h1
      apply cm_foldl_persist
      unfold cmStep
      rw [hmc, dictGet_insert, if_pos rfl]
      exact fun hh => Option.noConfusion hh
    · exact ih (cmStep m h2) h c h1 hmc

/-- For a cell of the header row, the column_mapping lookup agrees with the
inner matching loop. -/
theorem columnMapping_lookup (header : List String) (h : String) (hm : h ∈ header) :
    dictGet (columnMapping header) h = matchColumn h := by
  unfold columnMapping
  have hs := cm_foldl_sound header [] (fun k => Or.inl rfl) h
  cases hmc : matchColumn h with
  | none =>
    rcases hs with h1 | h1
    · exact h1
    · rw [h1, hmc]
  | some c =>
    rcases hs with h1 | h1
    · exact absurd h1 (cm_foldl_complete header [] h c hm hmc)
    · rw [h1, hmc]

/-! row_data lookup characterization. -/

theorem mem_zip_left {α β : Type} {xs : List α} {ys : List β} {hv : α × β}
    (h : hv ∈ xs.zip ys) : hv.1 ∈ xs := by
  induction xs generalizing ys with
  | nil => simp [List.zip] at h
  | cons x xs ih =>
    cases ys with
    | nil => simp [List.zip] at h
    | cons y ys =>
      rcases List.mem_cons.mp h with h1 | h1
      · rw [h1]; exact List.mem_cons_self _ _
      · exact List.mem_cons_of_mem _ (ih h1)

theorem rd_foldl_nomatch (header : List String) (c : String) :
    ∀ (l : List (String × String)) (d : List (String × String)),
      (∀ hv ∈ l, hv.1 ∈ header) → (∀ hv ∈ l, matchColumn hv.1 ≠ some c) →
      dictGet (l.foldl (rdStep header) d) c = dictGet d c := by
  intro l
  induction l with
  | nil => intro d _ _; rfl
  | cons hv l ih =>
    intro d hmem hnm
    simp only [List.foldl_cons]
    rw [ih _ (fun x hx => hmem x (List.mem_cons_of_mem _ hx))
          (fun x hx => hnm x (List.mem_cons_of_mem _ hx))]
    unfold rdStep
    rw [columnMapping_lookup header hv.1 (hmem hv (List.mem_cons_self _ _))]
    cases hmc : matchColumn hv.1 with
    | none => rfl
    | some c2 =>
      rw [dictGet_insert,
        if_neg (fun he : c = c2 => (hnm hv (List.mem_cons_self _ _)) (by rw [hmc, he]))]

theorem rd_foldl_last (header : List String) (c : String) :
    ∀ (l : List (String × String)) (d : List (String × String)) (q : Nat),
      (∀ hv ∈ l, hv.1 ∈ header) →
      q < l.length →
      matchColumn (l.getD q ("", "")).1 = some c →
      (∀ r, q < r → r < l.length → matchColumn (l.getD r ("", "")).1 ≠ some c) →
      dictGet (l.foldl (rdStep header) d) c = some (l.getD q ("", "")).2 := by
  intro l
  induction l with
  | nil => intro d q _ hq; exact absurd hq (by simp)
  | cons hv l ih =>
    intro d q hmem hq hmatch hmax
    simp only [List.foldl_cons]
    cases q with
    | zero =>
      have h0 : matchColumn hv.1 = some c := by simpa using hmatch
      have hnm : ∀ x ∈ l, matchColumn x.1 ≠ some c := by
        intro x hx
        obtain ⟨⟨r, hr⟩, hxr⟩ := List.mem_iff_get.mp hx
        have hgd : l.getD r ("", "") = x := by
          rw [List.getD_eq_getElem _ _ hr]; exact hxr
        have := hmax (r + 1) (Nat.succ_pos r) (by simpa using Nat.succ_lt_succ hr)
        rw [List.getD_cons_succ, hgd] at this
        exact this
      rw [rd_foldl_nomatch header c l _ (fun x hx => hmem x (List.mem_cons_of_mem _ hx)) hnm]
      unfold rdStep
      rw [columnMapping_lookup header hv.1 (hmem hv (List.mem_cons_self _ _)), h0,
        dictGet_insert, if_pos rfl]
      simp
    | succ q =>
      have := ih (rdStep header d hv) q
        (fun x hx => hmem x (List.mem_cons_of_mem _ hx))
        (by simpa using Nat.lt_of_succ_lt_succ hq)
        (by simpa using hmatch)
        (fun r hr1 hr2 => by
          have := hmax (r + 1) (Nat.succ_lt_succ hr1) (by simpa using Nat.succ_lt_succ hr2)
          simpa using this)
      simpa using this

theorem zip_getD (xs ys : List String) (q : Nat) (h1 : q < xs.length) (h2 : q < ys.length) :
    (xs.zip ys).getD q ("", "") = (xs.getD q "", ys.getD q "") := by
  induction xs generalizing ys q with
  | nil => exact absurd h1 (by simp)
  | cons x xs ih =>
    cases ys with
    | nil => exact absurd h2 (by simp)
    | cons y ys =>
      cases q with
      | zero => simp [List.zip_cons_cons]
      | succ q =>
        simp only [List.zip_cons_cons, List.getD_cons_succ]
        exact ih ys q (Nat.lt_of_succ_lt_succ h1) (Nat.lt_of_succ_lt_succ h2)

/-- When no covered position of the row matches the canonical column, the
row_data dict has no entry for it. -/
theorem rowData_none (header row : List String) (c : String)
    (h : ∀ p, p < header.length → p < row.length →
      matchColumn (header.getD p "") ≠ some c) :
    dictGet (buildRowData header row) c = none := by
  unfold buildRowData
  rw [rd_foldl_nomatch header c _ [] (fun hv hm => mem_zip_left hm) ?_]
  · rfl
  · intro hv hm
    obtain ⟨⟨p, hp⟩, hxp⟩ := List.mem_iff_get.mp hm
    have hp2 : p < header.length ∧ p < row.length := by
      rw [List.length_zip] at hp
      omega
    have hgd : (header.zip row).getD p ("", "") = hv := by
      rw [List.getD_eq_getElem _ _ hp]; exact hxp
    have hvp : hv.1 = header.getD p "" := by
      rw [← hgd, zip_getD header row p hp2.1 hp2.2]
    rw [hvp]
    exact h p hp2.1 hp2.2

/-- The row_data entry for a canonical column holds the cell of the last
covered header position mapping to that column. -/
theorem rowData_last (header row : List String) (c : String) (q : Nat)
    (hq1 : q < header.length) (hq2 : q < row.length)
    (hm : matchColumn (header.getD q "") = some c)
    (hmax : ∀ r, q < r → r < header.length → r < row.length →
      matchColumn (header.getD r "") ≠ some c) :
    dictGet (buildRowData header row) c = some (row.getD q "") := by
  unfold buildRowData
  have hlen : q < (header.zip row).length := by rw [List.length_zip]; omega
  rw [rd_foldl_last header c (header.zip row) [] q (fun hv hm2 => mem_zip_left hm2) hlen
      (by rw [zip_getD header row q hq1 hq2]; exact hm)
      (fun r hr1 hr2 => by
        have hrb : r < header.length ∧ r < row.length := by
          rw [List.length_zip] at hr2; omega
        rw [zip_getD header row r hrb.1 hrb.2]
        exact hmax r hr1 hrb.1 hrb.2),
    zip_getD header row q hq1 hq2]

/-! new_row shape lemmas. -/

theorem mkNewRow_length (rd : List (String × String)) :
    (mkNewRow rd).length = EXPECTED_COLUMNS.length := by
  simp [mkNewRow, standard_columns]

theorem mkNewRow_getD (rd : List (String × String)) (j : Nat)
    (hj : j < standard_columns.length) :
    (mkNewRow rd).getD j "" =
      (match dictGet rd (standard_columns.getD j "") with
       | some v => if standard_columns.getD j "" = "ID" then "" else v
       | none => "") := by
  have hj2 : j < (mkNewRow rd).length := by
    rw [mkNewRow_length]; simpa [standard_columns] using hj
  rw [List.getD_eq_getElem _ _ hj2, List.getD_eq_getElem _ _ hj]
  simp [mkNewRow]

theorem mkNewRow_getD_some (rd : List (String × String)) (j : Nat)
    (hj : j < standard_columns.length) (v : String)
    (hget : dictGet rd (standard_columns.getD j "") = some v) :
    (mkNewRow rd).getD j "" =
      (if standard_columns.getD j "" = "ID" then "" else v) := by
  rw [mkNewRow_getD rd j hj, hget]

theorem mkNewRow_getD_none (rd : List (String × String)) (j : Nat)
    (hj : j < standard_columns.length)
    (hget : dictGet rd (standard_columns.getD j "") = none) :
    (mkNewRow rd).getD j "" = "" := by
  rw [mkNewRow_getD rd j hj, hget]

/-- C1: every reshaped data row has exactly one field per canonical schema
column, in schema declaration order: a canonical column matched by the
column mapping at a unique header position receives the positionally
aligned source cell (empty when the row does not reach that position), a
canonical column matched nowhere receives the empty string, and the ID
column is blanked for every row. -/
theorem c1_row_reshaper (header row : List String) :
    (reshapeRow header row).length = EXPECTED_COLUMNS.length
    ∧ (∀ j, j < standard_columns.length → standard_columns.getD j "" = "ID" →
        (reshapeRow header row).getD j "" = "")
    ∧ (∀ j, j < standard_columns.length →
        (∀ p, p < header.length →
          matchColumn (header.getD p "") ≠ some (standard_columns.getD j "")) →
        (reshapeRow header row).getD j "" = "")
    ∧ (∀ j p, j < standard_columns.length →
        standard_columns.getD j "" ≠ "ID" →
        p < header.length →
        matchColumn (header.getD p "") = some (standard_columns.getD j "") →
        (∀ q, q < header.length →
          matchColumn (header.getD q "") = some (standard_columns.getD j "") → q = p) →
        (reshapeRow header row).getD j "" =
          (if p < row.length then row.getD p "" else "")) := by
  refine ⟨mkNewRow_length _, fun j hj hid => ?_, fun j hj hnone => ?_, fun j p hj hid hp hm hu => ?_⟩
  · unfold reshapeRow
    cases hget : dictGet (buildRowData header row) (standard_columns.getD j "") with
    | none => exact mkNewRow_getD_none _ j hj hget
    | some v => rw [mkNewRow_getD_some _ j hj v hget, if_pos hid]
  · exact mkNewRow_getD_none _ j hj (rowData_none header row _ (fun p hp _ => hnone p hp))
  · unfold reshapeRow
    by_cases hcov : p < row.length
    · rw [mkNewRow_getD_some _ j hj (row.getD p "")
        (rowData_last header row _ p hp hcov hm
          (fun r hr1 hr2 hr3 hmr => by have := hu r hr2 hmr; omega)),
        if_neg hid, if_pos hcov]
    · rw [mkNewRow_getD_none _ j hj
        (rowData_none header row _
          (fun p2 hp2 hr2 hmp2 => by have := hu p2 hp2 hmp2; omega)),
        if_neg hcov]

/-- Witness for C1 at a concrete header and row: the Sprache column sits at
source position 1 and its cell is carried to schema position 4. -/
theorem c1_row_reshaper_witness :
    (reshapeRow ["X", "Sprache*", "ID"] ["a", "de", "7"]).getD 4 "" = "de" := by
  have h := (c1_row_reshaper ["X", "Sprache*", "ID"] ["a", "de", "7"]).2.2.2 4 1
    (by decide) (by decide) (by decide) (by decide) (by decide)
  simpa using h

/-- C8: on a ragged row strictly shorter than the header, reshaping is
total (the output still has one cell per canonical column) and a canonical
column whose unique matched header position lies beyond the end of the row
is treated as an empty cell. -/
theorem c8_ragged_rows (header row : List String) (hlt : row.length < header.length) :
    (reshapeRow header row).length = EXPECTED_COLUMNS.length
    ∧ ∀ j p, j < standard_columns.length →
        p < header.length →
        matchColumn (header.getD p "") = some (standard_columns.getD j "") →
        (∀ q, q < header.length →
          matchColumn (header.getD q "") = some (standard_columns.getD j "") → q = p) →
        row.length ≤ p →
        (reshapeRow header row).getD j "" = "" := by
  refine ⟨mkNewRow_length _, fun j p hj hp hm hu hbeyond => ?_⟩
  exact mkNewRow_getD_none _ j hj
    (rowData_none header row _
      (fun p2 hp2 hr2 hmp2 => by have := hu p2 hp2 hmp2; omega))

/-- Witness for C8: the Dokumentnummer column is matched at position 1 but
the single-cell row stops before it, so its output cell is empty. -/
theorem c8_ragged_rows_witness :
    (reshapeRow ["Sprache*", "Dokumentnummer"] ["de"]).getD 6 "" = "" := by
  exact (c8_ragged_rows ["Sprache*", "Dokumentnummer"] ["de"] (by decide)).2 6 1
    (by decide) (by decide) (by decide) (by decide) (by decide)

/-- C10: the column mapping is keyed by the raw header string, so equal raw
header cells share one mapping entry, and when several covered positions
map to the same canonical column the reshaped cell takes the value of the
right-most covered one. -/
theorem c10_rightmost_duplicate (header row : List String) (p q j : Nat)
    (hpq : p < q) (hq1 : q < header.length) (hq2 : q < row.length)
    (heq : header.getD p "" = header.getD q "")
    (hj : j < standard_columns.length)
    (hmatch : matchColumn (header.getD q "") = some (standard_columns.getD j ""))
    (hid : standard_columns.getD j "" ≠ "ID")
    (hmax : ∀ r, q < r → r < header.length → r < row.length →
      matchColumn (header.getD r "") ≠ some (standard_columns.getD j "")) :
    dictGet (columnMapping header) (header.getD p "") =
      dictGet (columnMapping header) (header.getD q "")
    ∧ (reshapeRow header row).getD j "" = row.getD q "" := by
  constructor
  · rw [heq]
  · unfold reshapeRow
    rw [mkNewRow_getD_some _ j hj (row.getD q "")
        (rowData_last header row _ q hq1 hq2 hmatch hmax), if_neg hid]

/-- Witness for C10: a duplicated Sprache header makes the reshaped cell
take the value of the right-most covered position. -/
theorem c10_rightmost_duplicate_witness :
    (reshapeRow ["Sprache*", "Sprache*"] ["de", "fr"]).getD 4 "" = "fr" := by
  exact (c10_rightmost_duplicate ["Sprache*", "Sprache*"] ["de", "fr"] 0 1 4
    (by decide) (by decide) (by decide) (by decide) (by decide) (by decide)
    (by decide) (by intro r h1 h2 h3; simp at h2; omega)).2

/-! Header cleaning lemmas. -/

theorem length_dropWhile_le (p : Char → Bool) (l : List Char) :
    (l.dropWhile p).length ≤ l.length :=
  List.IsSuffix.length_le (List.dropWhile_suffix p)

theorem dropWhile_eq_self_of_length {p : Char → Bool} {l : List Char}
    (h : (l.dropWhile p).length = l.length) : l.dropWhile p = l :=
  List.IsSuffix.eq_of_length (List.dropWhile_suffix p) h

theorem dropWhile_append_all {p : Char → Bool} {w : List Char} (l : List Char)
    (hw : ∀ c ∈ w, p c = true) : (w ++ l).dropWhile p = l.dropWhile p := by
  induction w with
  | nil => rfl
  | cons c w ih =>
    rw [List.cons_append, List.dropWhile_cons, if_pos (hw c (List.mem_cons_self _ _)),
      ih (fun x hx => hw x (List.mem_cons_of_mem _ hx))]

theorem dropWhile_append_self {p : Char → Bool} {l m : List Char}
    (hl : l.dropWhile p = l) (hm : m.dropWhile p = m) :
    (l ++ m).dropWhile p = l ++ m := by
  cases l with
  | nil => simpa using hm
  | cons c l =>
    have hc : ¬p c = true := by
      intro hc
      rw [List.dropWhile_cons, if_pos hc] at hl
      have h1 := congrArg List.length hl
      have h2 := length_dropWhile_le p l
      simp at h1
      omega
    rw [List.cons_append, List.dropWhile_cons, if_neg hc]

/-- When the cleaning of get_column_mapping leaves a cell unchanged, the
cell carries no leading or trailing whitespace and no leading BOM. -/
theorem pyStrip_parts {a : List Char} (h : lstripBOM (pyStrip a) = a) :
    a.dropWhile isPySpace = a
    ∧ a.reverse.dropWhile isPySpace = a.reverse
    ∧ lstripBOM a = a := by
  have hlen : a.length = (lstripBOM (pyStrip a)).length := by rw [h]
  have h1 : (pyStrip a).length ≤ (a.dropWhile isPySpace).length := by
    unfold pyStrip
    calc ((a.dropWhile isPySpace).reverse.dropWhile isPySpace).reverse.length
        = ((a.dropWhile isPySpace).reverse.dropWhile isPySpace).length :=
          List.length_reverse _
      _ ≤ (a.dropWhile isPySpace).reverse.length := length_dropWhile_le _ _
      _ = (a.dropWhile isPySpace).length := List.length_reverse _
  have h2 : (a.dropWhile isPySpace).length ≤ a.length := length_dropWhile_le _ _
  have h3 : (lstripBOM (pyStrip a)).length ≤ (pyStrip a).length := by
    unfold lstripBOM
    exact length_dropWhile_le _ _
  have hdw1 : a.dropWhile isPySpace = a :=
    dropWhile_eq_self_of_length (by omega)
  have hps : pyStrip a = (a.reverse.dropWhile isPySpace).reverse := by
    unfold pyStrip
    rw [hdw1]
  have e2 : (pyStrip a).length = a.length := by omega
  have hdw2 : a.reverse.dropWhile isPySpace = a.reverse := by
    apply dropWhile_eq_self_of_length
    have : ((a.reverse.dropWhile isPySpace).reverse).length = a.length := by
      rw [← hps]; exact e2
    rw [List.length_reverse] at this
    rw [this, List.length_reverse]
  have hps2 : pyStrip a = a := by
    rw [hps, hdw2, List.reverse_reverse]
  rw [hps2] at h
  exact ⟨hdw1, hdw2, h⟩

/-- A cell wrapped in whitespace with a leading BOM cleans to the bare
cell. -/
theorem cleanHeader_decorated (v : String) (w1 w2 : List Char)
    (hw1 : ∀ c ∈ w1, isPySpace c = true) (hw2 : ∀ c ∈ w2, isPySpace c = true)
    (hv : cleanHeader v = v) :
    cleanHeader ⟨w1 ++ '\uFEFF' :: (v.data ++ w2)⟩ = v := by
  obtain ⟨hdw1, hdw2, hbom⟩ := pyStrip_parts (congrArg String.data hv)
  show (⟨lstripBOM (pyStrip (w1 ++ '\uFEFF' :: (v.data ++ w2)))⟩ : String) = v
  have hstep1 : (w1 ++ '\uFEFF' :: (v.data ++ w2)).dropWhile isPySpace
      = '\uFEFF' :: (v.data ++ w2) := by
    rw [dropWhile_append_all _ hw1, List.dropWhile_cons, if_neg (by decide)]
  have hrev : ('\uFEFF' :: (v.data ++ w2)).reverse
      = w2.reverse ++ (v.data.reverse ++ ['\uFEFF']) := by
    simp
  have hbomtail : (v.data.reverse ++ ['\uFEFF']).dropWhile isPySpace
      = v.data.reverse ++ ['\uFEFF'] :=
    dropWhile_append_self hdw2 (by decide)
  have hps : pyStrip (w1 ++ '\uFEFF' :: (v.data ++ w2)) = '\uFEFF' :: v.data := by
    unfold pyStrip
    rw [hstep1, hrev, dropWhile_append_all _ (fun c hc => hw2 c (List.mem_reverse.mp hc)),
      hbomtail]
    simp
  rw [hps]
  show (⟨('\uFEFF' :: v.data).dropWhile (fun c => c = '\uFEFF')⟩ : String) = v
  rw [List.dropWhile_cons, if_pos (by decide)]
  have : v.data.dropWhile (fun c => c = '\uFEFF') = v.data := hbom
  rw [this]

/-- First-match characterization of find? through positions. -/
theorem find_eq_of_getD {α : Type} (p : α → Bool) (d : α) :
    ∀ (l : List α) (i : Nat), i < l.length → p (l.getD i d) = true →
      (∀ i2, i2 < i → p (l.getD i2 d) = false) →
      l.find? p = some (l.getD i d) := by
  intro l
  induction l with
  | nil => intro i hi; exact absurd hi (by simp)
  | cons a l ih =>
    intro i hi hp hprior
    cases i with
    | zero =>
      rw [List.getD_cons_zero] at hp ⊢
      exact List.find?_cons_of_pos _ hp
    | succ i =>
      have h0 : p a = false := by
        have := hprior 0 (Nat.succ_pos i)
        simpa using this
      rw [List.getD_cons_succ] at hp ⊢
      rw [List.find?_cons_of_neg _ (by simp [h0])]
      exact ih i (Nat.lt_of_succ_lt_succ hi) hp
        (fun i2 hi2 => by
          have := hprior (i2 + 1) (Nat.succ_lt_succ hi2)
          simpa using this)

theorem cm_foldl_nodup (hs : List String) :
    ∀ (m : List (String × String)), (m.map Prod.fst).Nodup →
      ((hs.foldl cmStep m).map Prod.fst).Nodup := by
  induction hs with
  | nil => intro m hm; exact hm
  | cons h hs ih =>
    intro m hm
    simp only [List.foldl_cons]
    apply ih
    unfold cmStep
    cases matchColumn h with
    | none => exact hm
    | some c => exact insertDict_keys_nodup _ _ hm

/-- C2: header matching first cleans the raw cell (strip, then leading BOM
removal), then compares it, exact and case-sensitive, against every variant
of every column spec in declaration order with the first match winning, so
a cell equal to any variant maps to that column's first variant, the
mapping holds at most one entry per raw header string, and surrounding
whitespace plus a leading BOM never affect the match. -/
theorem c2_header_matching :
    (∀ (v : String) (w1 w2 : List Char),
      (∀ c ∈ w1, isPySpace c = true) → (∀ c ∈ w2, isPySpace c = true) →
      cleanHeader v = v →
      matchColumn ⟨w1 ++ '\uFEFF' :: (v.data ++ w2)⟩ = matchColumn v)
    ∧ (∀ spec ∈ EXPECTED_COLUMNS, ∀ v ∈ spec, matchColumn v = some (spec.headD ""))
    ∧ (∀ (h : String) (i : Nat), i < EXPECTED_COLUMNS.length →
        cleanHeader h ∈ EXPECTED_COLUMNS.getD i [] →
        (∀ i2, i2 < i → cleanHeader h ∉ EXPECTED_COLUMNS.getD i2 []) →
        matchColumn h = some ((EXPECTED_COLUMNS.getD i []).headD ""))
    ∧ (∀ header_row : List String, ((columnMapping header_row).map Prod.fst).Nodup) := by
  refine ⟨fun v w1 w2 hw1 hw2 hv => ?_, by decide, fun h i hi hmem hprior => ?_, fun hr => ?_⟩
  · unfold matchColumn
    rw [cleanHeader_decorated v w1 w2 hw1 hw2 hv, hv]
  · unfold matchColumn
    rw [find_eq_of_getD _ [] EXPECTED_COLUMNS i hi (by simpa using hmem)
      (fun i2 hi2 => by simpa using hprior i2 hi2)]
    rfl
  · exact cm_foldl_nodup hr [] (by simp)

/-- Witness for C2: the DokumentUrl variant decorated with spaces and a
leading BOM still maps to the canonical DokumentUrl column. -/
theorem c2_header_matching_witness :
    matchColumn ⟨[' '] ++ '\uFEFF' :: ("DokumentUrl*".data ++ [' '])⟩
      = some "DokumentUrl*" := by
  rw [c2_header_matching.1 "DokumentUrl*" [' '] [' '] (by decide) (by decide) (by decide)]
  decide

/-! Chunk splitting lemmas. -/

theorem ceil_chunk_step (k : Nat) (hk : 0 < k) (n : Nat) (hn : 0 < n) :
    (n + k - 1) / k = ((n - k) + k - 1) / k + 1 := by
  by_cases h : n ≤ k
  · have h1 : n - k = 0 := by omega
    have h2 : n + k - 1 = (n - 1) + k := by omega
    rw [h1, h2, Nat.add_div_right _ hk, Nat.div_eq_of_lt (by omega)]
    rw [Nat.zero_add, Nat.div_eq_of_lt (by omega)]
  · have h2 : n + k - 1 = (n - 1) + k := by omega
    have h3 : (n - k) + k - 1 = (n - k - 1) + k := by omega
    have h4 : n - 1 = (n - k - 1) + k := by omega
    rw [h2, h3, Nat.add_div_right _ hk, Nat.add_div_right _ hk, h4,
      Nat.add_div_right _ hk]

theorem chunks_flatten {α : Type} (k : Nat) (hk : 0 < k) :
    ∀ (n : Nat) (l : List α), l.length ≤ n →
      ((List.range ((l.length + k - 1) / k)).map
        (fun i => (l.drop (i * k)).take k)).flatten = l := by
  intro n
  induction n with
  | zero =>
    intro l hl
    have hnil : l = [] := List.eq_nil_of_length_eq_zero (Nat.le_zero.mp hl)
    subst hnil
    simp only [List.length_nil, Nat.zero_add]
    rw [Nat.div_eq_of_lt (by omega)]
    simp
  | succ n ih =>
    intro l hl
    by_cases h0 : l.length = 0
    · have hnil : l = [] := List.eq_nil_of_length_eq_zero h0
      subst hnil
      simp only [List.length_nil, Nat.zero_add]
      rw [Nat.div_eq_of_lt (by omega)]
      simp
    · have hc : (l.length + k - 1) / k = ((l.drop k).length + k - 1) / k + 1 := by
        rw [List.length_drop]
        exact ceil_chunk_step k hk l.length (by omega)
      rw [hc, List.range_succ_eq_map]
      simp only [List.map_cons, List.map_map, List.flatten_cons, Nat.zero_mul,
        List.drop_zero]
      have hmc : (List.range (((l.drop k).length + k - 1) / k)).map
            ((fun i => (l.drop (i * k)).take k) ∘ (· + 1))
          = (List.range (((l.drop k).length + k - 1) / k)).map
            (fun i => ((l.drop k).drop (i * k)).take k) := by
        apply List.map_congr_left
        intro i _
        show (l.drop ((i + 1) * k)).take k = ((l.drop k).drop (i * k)).take k
        rw [List.drop_drop]
        congr 1
        rw [Nat.succ_mul, Nat.add_comm]
      rw [hmc, ih (l.drop k) (by rw [List.length_drop]; omega),
        List.take_append_drop]

/-- C3: concatenating the data rows of every chunk, in chunk order and with
each chunk's header rows skipped, reproduces the reshaped data-row sequence
exactly, with no loss, duplication or reordering. -/
theorem c3_chunks_reassemble (header_rows data_rows : List (List String)) :
    ((makeChunks header_rows data_rows).map
      (fun chunk => chunk.drop header_rows.length)).flatten = data_rows := by
  unfold makeChunks
  rw [List.map_map]
  have hcomp : ((fun chunk => chunk.drop header_rows.length) ∘
      (fun i => header_rows ++ ((data_rows.drop (i * ROWS_PER_CHUNK)).take ROWS_PER_CHUNK)))
      = fun i => (data_rows.drop (i * ROWS_PER_CHUNK)).take ROWS_PER_CHUNK := by
    funext i
    exact List.drop_left _ _
  rw [hcomp]
  exact chunks_flatten ROWS_PER_CHUNK (by decide) data_rows.length data_rows (Nat.le_refl _)

theorem makeChunks_length (hr dr : List (List String)) :
    (makeChunks hr dr).length = (dr.length + ROWS_PER_CHUNK - 1) / ROWS_PER_CHUNK := by
  unfold makeChunks
  simp

theorem makeChunks_getD (hr dr : List (List String)) (i : Nat)
    (hi : i < (makeChunks hr dr).length) :
    (makeChunks hr dr).getD i []
      = hr ++ ((dr.drop (i * ROWS_PER_CHUNK)).take ROWS_PER_CHUNK) := by
  unfold makeChunks at hi ⊢
  rw [List.getD_eq_getElem _ _ hi]
  simp

/-- C4: the splitter produces ceil(n / 3800) chunks, each chunk starts
with a verbatim copy of the header block, its data part is the
corresponding positional slice, every chunk except possibly the last
carries exactly 3800 data rows, and in general a chunk carries
min 3800 (n - i * 3800) data rows. -/
theorem c4_chunk_shapes (hr dr : List (List String)) :
    (makeChunks hr dr).length = (dr.length + ROWS_PER_CHUNK - 1) / ROWS_PER_CHUNK
    ∧ (∀ i, i < (makeChunks hr dr).length →
        ((makeChunks hr dr).getD i []).take hr.length = hr)
    ∧ (∀ i, i < (makeChunks hr dr).length →
        ((makeChunks hr dr).getD i []).drop hr.length
          = (dr.drop (i * ROWS_PER_CHUNK)).take ROWS_PER_CHUNK)
    ∧ (∀ i, i + 1 < (makeChunks hr dr).length →
        (((makeChunks hr dr).getD i []).drop hr.length).length = ROWS_PER_CHUNK)
    ∧ (∀ i, i < (makeChunks hr dr).length →
        (((makeChunks hr dr).getD i []).drop hr.length).length
          = min ROWS_PER_CHUNK (dr.length - i * ROWS_PER_CHUNK)) := by
  refine ⟨makeChunks_length hr dr, fun i hi => ?_, fun i hi => ?_, fun i hi => ?_,
    fun i hi => ?_⟩
  · rw [makeChunks_getD hr dr i hi, List.take_left]
  · rw [makeChunks_getD hr dr i hi, List.drop_left]
  · rw [makeChunks_getD hr dr i (by omega), List.drop_left]
    simp only [List.length_take, List.length_drop]
    rw [makeChunks_length] at hi
    simp only [ROWS_PER_CHUNK] at hi ⊢
    omega
  · rw [makeChunks_getD hr dr i hi, List.drop_left]
    simp [List.length_take, List.length_drop]

/-- Witness for C4: 9000 data rows with one header row split into 3
chunks whose last chunk has 1400 data rows and starts with the header. -/
theorem c4_chunk_shapes_witness :
    (makeChunks [["H"]] (List.replicate 9000 ["x"])).length = 3
    ∧ (((makeChunks [["H"]] (List.replicate 9000 ["x"])).getD 2 []).drop
        [["H"]].length).length = 1400
    ∧ ((makeChunks [["H"]] (List.replicate 9000 ["x"])).getD 2 []).take
        [["H"]].length = [["H"]] := by
  have h := c4_chunk_shapes [["H"]] (List.replicate 9000 ["x"])
  have hlen : (makeChunks [["H"]] (List.replicate 9000 ["x"])).length = 3 := by
    rw [h.1]
    norm_num [ROWS_PER_CHUNK]
  refine ⟨hlen, ?_, ?_⟩
  · have h5 := h.2.2.2.2 2 (by rw [hlen]; omega)
    rw [h5]
    simp only [List.length_replicate, ROWS_PER_CHUNK]
    omega
  · exact h.2.1 2 (by rw [hlen]; omega)

/-! AcCode rewriting lemmas. -/

theorem solicitToken_three : ∀ (inputs : List String) (t : String),
    solicitToken inputs = some t → t.length = 3 := by
  intro inputs
  induction inputs with
  | nil => intro t h; exact Option.noConfusion h
  | cons line rest ih =>
    intro t h
    simp only [solicitToken] at h
    by_cases hc : (pyStripS line).length = 3
    · rw [if_pos hc] at h
      cases h
      exact hc
    · rw [if_neg hc] at h
      exact ih t h

theorem startsWithCS_ne_empty {ac : String} (h : startsWithCS ac = true) : ac ≠ "" := by
  intro he
  rw [he] at h
  exact absurd h (by decide)

theorem acCodeAdjust_state_stable (inputs : List String) (st : TokenState)
    (rd : List (String × String)) (h : st ≠ none) :
    (acCodeAdjust inputs st rd).1 = st := by
  cases st with
  | none => exact absurd rfl h
  | some x =>
    unfold acCodeAdjust
    split
    · rfl
    · split
      · cases x with
        | none => rfl
        | some t =>
          dsimp only
          split
          · rfl
          · rfl
      · rfl

theorem acCodeAdjust_no_token (st : TokenState)
    (rd : List (String × String)) (h : st = none ∨ st = some none) :
    acCodeAdjust [] st rd = (if st = none ∧ (dictGet rd "AcCode*").isSome ∧
        (∀ ac, dictGet rd "AcCode*" = some ac → ac ≠ "" ∧ startsWithCS ac = true)
      then some none else st, rd) := by
  unfold acCodeAdjust
  cases hget : dictGet rd "AcCode*" with
  | none => simp [hget]
  | some ac =>
    dsimp only
    by_cases hcs : ac ≠ "" ∧ startsWithCS ac = true
    · rw [if_pos hcs]
      rcases h with h | h
      · subst h
        rw [if_pos ⟨rfl, by simp, fun a ha => by cases ha; exact hcs⟩]
        rfl
      · subst h
        rw [if_neg (by simp)]
    · rw [if_neg hcs]
      rcases h with h | h
      · subst h
        rw [if_neg (fun hh => hcs (hh.2.2 ac rfl))]
      · subst h
        rw [if_neg (by simp)]

theorem acCodeAdjust_skip_set {st : TokenState}
    (rd : List (String × String)) (h : st = none ∨ st = some none) :
    (acCodeAdjust [] st rd).2 = rd ∧
      ((acCodeAdjust [] st rd).1 = none ∨ (acCodeAdjust [] st rd).1 = some none) := by
  rw [acCodeAdjust_no_token st rd h]
  refine ⟨rfl, ?_⟩
  by_cases hc : st = none ∧ (dictGet rd "AcCode*").isSome ∧
      (∀ ac, dictGet rd "AcCode*" = some ac → ac ≠ "" ∧ startsWithCS ac = true)
  · rw [if_pos hc]; exact Or.inr rfl
  · rw [if_neg hc]; exact h

theorem processDataRows_state_stable (inputs header : List String) :
    ∀ (rows : List (List String)) (st : TokenState), st ≠ none →
      (processDataRows inputs header st rows).1 = st := by
  intro rows
  induction rows with
  | nil => intro st h; rfl
  | cons r rs ih =>
    intro st h
    simp only [processDataRows, processDataRow]
    rw [acCodeAdjust_state_stable inputs st _ h]
    exact ih st h

theorem processDataRows_no_token (header : List String) :
    ∀ (rows : List (List String)) (st : TokenState), (st = none ∨ st = some none) →
      (processDataRows [] header st rows).2 = rows.map (reshapeRow header) := by
  intro rows
  induction rows with
  | nil => intro st h; rfl
  | cons r rs ih =>
    intro st h
    simp only [processDataRows, processDataRow, List.map_cons]
    obtain ⟨h2, h1⟩ := acCodeAdjust_skip_set (buildRowData header r) h
    rw [h2]
    exact congrArg _ (ih _ h1)

/-- C5: a row whose AcCode value starts with CS is spliced to
CS + token + N followed by the suffix from character offset 6 when the
value has at least 6 characters and a 3-character token is cached; shorter
values stay unchanged; the cached state never changes once set, so the
token is solicited at most once per run and reused; a solicited token
always has exactly 3 characters; and when interactive input is exhausted
every rewrite is skipped while processing continues normally. -/
theorem c5_accode_rewriter :
    (∀ (inputs header row : List String) (t ac : String),
      dictGet (buildRowData header row) "AcCode*" = some ac →
      startsWithCS ac = true → 6 ≤ ac.length →
      processDataRow inputs header (some (some t)) row
        = (some (some t),
           mkNewRow (insertDict (buildRowData header row) "AcCode*"
             ("CS" ++ t ++ "N" ++ strDrop ac 6))))
    ∧ (∀ (inputs header row : List String) (t ac : String),
      dictGet (buildRowData header row) "AcCode*" = some ac →
      startsWithCS ac = true → ac.length < 6 →
      processDataRow inputs header (some (some t)) row
        = (some (some t), reshapeRow header row))
    ∧ (∀ (inputs header : List String) (st : TokenState) (rows : List (List String)),
      st ≠ none → (processDataRows inputs header st rows).1 = st)
    ∧ (∀ (inputs : List String) (t : String), solicitToken inputs = some t → t.length = 3)
    ∧ (∀ (header : List String) (rows : List (List String)),
      processDataRows [] header (some none) rows
        = (some none, rows.map (reshapeRow header))) := by
  refine ⟨fun inputs header row t ac hget hcs h6 => ?_,
    fun inputs header row t ac hget hcs h6 => ?_,
    fun inputs header st rows h => processDataRows_state_stable inputs header rows st h,
    solicitToken_three,
    fun header rows => ?_⟩
  · simp only [processDataRow, acCodeAdjust]
    rw [hget]
    dsimp only
    rw [if_pos ⟨startsWithCS_ne_empty hcs, hcs⟩, if_pos h6]
  · simp only [processDataRow, acCodeAdjust]
    rw [hget]
    dsimp only
    rw [if_pos ⟨startsWithCS_ne_empty hcs, hcs⟩, if_neg (by omega)]
    rfl
  · have h1 := processDataRows_no_token header rows (some none) (Or.inr rfl)
    have h2 := processDataRows_state_stable [] header rows (some none) (by simp)
    cases hpr : processDataRows [] header (some none) rows with
    | mk a b =>
      rw [hpr] at h1 h2
      simp only at h1 h2
      rw [h1, h2]

/-- Witness for C5: with a cached token ABC, the AcCode value CS123456 is
rewritten to CSABCN56 in the reshaped output row. -/
theorem c5_accode_rewriter_witness :
    (processDataRow [] ["AcCode*"] (some (some "ABC")) ["CS123456"]).2.getD 8 ""
      = "CSABCN56" := by
  rw [c5_accode_rewriter.1 [] ["AcCode*"] ["CS123456"] "ABC" "CS123456"
    (by decide) (by decide) (by decide)]
  decide

/-- C9: with no interactive input available, the run still completes with
success, no AcCode value is rewritten (every data row is the plain
reshape), and no chunk files are produced, whether or not the written file
is oversized. -/
theorem c9_no_interactive_skip (rows : List (List String)) (oversized : Bool)
    (hne : rows ≠ []) :
    process_rows [] [] rows oversized
      = (mkHeaderRows rows (headerRowsCount rows)
          ++ (rows.drop (headerRowsCount rows)).map (reshapeRow (rows.headD [])),
         none, true) := by
  unfold process_rows
  rw [if_neg (by have := List.length_pos.mpr hne; omega)]
  have hsplit : shouldSplit [] = false := rfl
  have hdata := processDataRows_no_token (rows.headD [])
    (rows.drop (headerRowsCount rows)) none (Or.inl rfl)
  dsimp only
  rw [hdata, hsplit]
  cases oversized <;> simp

/-- Witness for C9: a two-row oversized file processed without interactive
input reports success and produces no chunks. -/
theorem c9_no_interactive_skip_witness :
    (process_rows [] [] [["Sprache*"], ["de"]] true).2 = (none, true) := by
  rw [c9_no_interactive_skip [["Sprache*"], ["de"]] true (by decide)]

/-! Line-break normalization lemmas. -/

theorem notLF_replaceLF (s : List Char) : '\n' ∉ replaceLF s := by
  induction s with
  | nil => simp [replaceLF]
  | cons c cs ih =>
    simp only [replaceLF]
    by_cases hc : c = '\n'
    · rw [if_pos hc]
      intro hmem
      rcases List.mem_append.mp hmem with h | h
      · exact absurd h (by decide)
      · exact ih h
    · rw [if_neg hc]
      intro hmem
      rcases List.mem_cons.mp hmem with h | h
      · exact hc h.symm
      · exact ih h

theorem notCR_replaceCR (s : List Char) : '\r' ∉ replaceCR s := by
  induction s with
  | nil => simp [replaceCR]
  | cons c cs ih =>
    simp only [replaceCR]
    by_cases hc : c = '\r'
    · rw [if_pos hc]
      intro hmem
      rcases List.mem_append.mp hmem with h | h
      · exact absurd h (by decide)
      · exact ih h
    · rw [if_neg hc]
      intro hmem
      rcases List.mem_cons.mp hmem with h | h
      · exact hc h.symm
      · exact ih h

theorem replaceCR_keeps_notLF {s : List Char} (h : '\n' ∉ s) : '\n' ∉ replaceCR s := by
  induction s with
  | nil => simp [replaceCR]
  | cons c cs ih =>
    have hcs : '\n' ∉ cs := fun hm => h (List.mem_cons_of_mem _ hm)
    simp only [replaceCR]
    by_cases hc : c = '\r'
    · rw [if_pos hc]
      intro hmem
      rcases List.mem_append.mp hmem with h2 | h2
      · exact absurd h2 (by decide)
      · exact ih hcs h2
    · rw [if_neg hc]
      intro hmem
      rcases List.mem_cons.mp hmem with h2 | h2
      · exact h (h2 ▸ List.mem_cons_self _ _)
      · exact ih hcs h2

theorem replaceCRLF_eq_self {s : List Char} (h : '\r' ∉ s) : replaceCRLF s = s := by
  induction s with
  | nil => rfl
  | cons c cs ih =>
    cases cs with
    | nil => rfl
    | cons c2 cs2 =>
      have hc : ¬(c = '\r' ∧ c2 = '\n') :=
        fun hh => h (hh.1 ▸ List.mem_cons_self _ _)
      simp only [replaceCRLF]
      rw [if_neg hc]
      exact congrArg _ (ih (fun hm => h (List.mem_cons_of_mem _ hm)))

theorem replaceLF_eq_self {s : List Char} (h : '\n' ∉ s) : replaceLF s = s := by
  induction s with
  | nil => rfl
  | cons c cs ih =>
    simp only [replaceLF]
    rw [if_neg (fun hc : c = '\n' => h (hc ▸ List.mem_cons_self _ _))]
    exact congrArg _ (ih (fun hm => h (List.mem_cons_of_mem _ hm)))

theorem replaceCR_eq_self {s : List Char} (h : '\r' ∉ s) : replaceCR s = s := by
  induction s with
  | nil => rfl
  | cons c cs ih =>
    simp only [replaceCR]
    rw [if_neg (fun hc : c = '\r' => h (hc ▸ List.mem_cons_self _ _))]
    exact congrArg _ (ih (fun hm => h (List.mem_cons_of_mem _ hm)))

theorem replaceCRLF_append_noCR {a : List Char} (t : List Char) (h : '\r' ∉ a) :
    replaceCRLF (a ++ t) = a ++ replaceCRLF t := by
  induction a with
  | nil => rfl
  | cons c a2 ih =>
    have hc : c ≠ '\r' := fun hh => h (hh ▸ List.mem_cons_self _ _)
    have ha2 : '\r' ∉ a2 := fun hm => h (List.mem_cons_of_mem _ hm)
    cases hrest : a2 ++ t with
    | nil =>
      rcases List.append_eq_nil.mp hrest with ⟨h1, h2⟩
      subst h1
      subst h2
      rfl
    | cons c2 rest2 =>
      show replaceCRLF (c :: (a2 ++ t)) = c :: (a2 ++ replaceCRLF t)
      rw [hrest]
      simp only [replaceCRLF]
      rw [if_neg (fun hh => hc hh.1), ← hrest, ih ha2]

theorem rdropSpace_length (s : List Char) : (rdropSpace s).length ≤ s.length := by
  unfold rdropSpace
  rw [List.length_reverse]
  calc (s.reverse.dropWhile isPySpace).length
      ≤ s.reverse.length := length_dropWhile_le _ _
    _ = s.length := List.length_reverse _

theorem rstripBrStep_shrink {s : List Char} (h : rstripBrStep s ≠ s) :
    (rstripBrStep s).length + 4 ≤ s.length := by
  unfold rstripBrStep at h ⊢
  by_cases hsuf : ['<', 'b', 'r', '>'].isSuffixOf (rdropSpace s) = true
  · rw [if_pos hsuf]
    have h4 : 4 ≤ (rdropSpace s).length := by
      have hrev : ['>', 'r', 'b', '<'] <+: (rdropSpace s).reverse := by
        simpa [List.isSuffixOf] using hsuf
      rw [show (['>', 'r', 'b', '<'] : List Char) = (['<', 'b', 'r', '>'] : List Char).reverse
        from rfl] at hrev
      have hsx := List.reverse_prefix.mp hrev
      simpa using hsx.length_le
    have h5 := rdropSpace_length s
    have h6 := rdropSpace_length ((rdropSpace s).take ((rdropSpace s).length - 4))
    have h7 : ((rdropSpace s).take ((rdropSpace s).length - 4)).length
        = (rdropSpace s).length - 4 := by
      rw [List.length_take]
      omega
    omega
  · rw [if_neg hsuf] at h
    exact absurd rfl h

theorem rstripBrFuel_fix : ∀ (n : Nat) (s : List Char), s.length ≤ n →
    rstripBrStep (rstripBrFuel n s) = rstripBrFuel n s := by
  intro n
  induction n with
  | zero =>
    intro s hs
    have hnil : s = [] := List.eq_nil_of_length_eq_zero (Nat.le_zero.mp hs)
    subst hnil
    decide
  | succ n ih =>
    intro s hs
    simp only [rstripBrFuel]
    by_cases h : rstripBrStep s = s
    · rw [if_pos h]
      exact h
    · rw [if_neg h]
      have := rstripBrStep_shrink h
      exact ih (rstripBrStep s) (by omega)

/-- After the stripping loop, one more substitution changes nothing: no
trailing marker remains. -/
theorem rstripBr_fix (s : List Char) : rstripBrStep (rstripBr s) = rstripBr s :=
  rstripBrFuel_fix s.length s (Nat.le_refl _)

/-- C6: the first pass leaves no carriage return and no line feed in any
field, a CRLF pair surrounded by break-free text becomes exactly one
marker, the trailing-marker stripping loop reaches a state from which one
more regex substitution changes nothing, and the spec example normalizes
as stated. -/
theorem c6_linebreak_markers :
    (∀ s : List Char, '\r' ∉ normalizeBreaks s ∧ '\n' ∉ normalizeBreaks s)
    ∧ (∀ a b : List Char, '\r' ∉ a → '\n' ∉ a → '\r' ∉ b → '\n' ∉ b →
        normalizeBreaks (a ++ '\r' :: '\n' :: b) = a ++ brMark ++ b)
    ∧ (∀ s : List Char, rstripBrStep (rstripBr s) = rstripBr s)
    ∧ processField "line1\r\nline2\n\n".data = "line1 <br> line2".data := by
  refine ⟨fun s => ⟨notCR_replaceCR _, replaceCR_keeps_notLF (notLF_replaceLF _)⟩,
    fun a b hra hna hrb hnb => ?_, rstripBr_fix, by decide⟩
  unfold normalizeBreaks
  rw [replaceCRLF_append_noCR _ hra]
  have h1 : replaceCRLF ('\r' :: '\n' :: b) = brMark ++ replaceCRLF b := by
    simp [replaceCRLF]
  rw [h1, replaceCRLF_eq_self hrb]
  have hnall : '\n' ∉ a ++ (brMark ++ b) := by
    intro hm
    rcases List.mem_append.mp hm with h | h
    · exact hna h
    · rcases List.mem_append.mp h with h | h
      · exact absurd h (by decide)
      · exact hnb h
  have hrall : '\r' ∉ a ++ (brMark ++ b) := by
    intro hm
    rcases List.mem_append.mp hm with h | h
    · exact hra h
    · rcases List.mem_append.mp h with h | h
      · exact absurd h (by decide)
      · exact hrb h
  rw [List.append_assoc] at *
  rw [replaceLF_eq_self hnall, replaceCR_eq_self hrall]

/-- Witness for C6: splicing around a single CRLF with concrete break-free
text on both sides. -/
theorem c6_linebreak_markers_witness :
    normalizeBreaks ("line1".data ++ '\r' :: '\n' :: "line2".data)
      = "line1".data ++ brMark ++ "line2".data := by
  exact c6_linebreak_markers.2.1 "line1".data "line2".data
    (by decide) (by decide) (by decide) (by decide)

/-! Semicolon substitution lemmas. -/

theorem semicolonFix_no_semicolon (f : List Char) : ';' ∉ (semicolonFix f).1 := by
  unfold semicolonFix
  by_cases h : ';' ∈ f
  · rw [if_pos h]
    dsimp only
    intro hm
    obtain ⟨c, hc, he⟩ := List.mem_map.mp hm
    by_cases hcs : c = ';'
    · rw [if_pos hcs] at he
      exact absurd he (by decide)
    · rw [if_neg hcs] at he
      exact hcs he
  · rw [if_neg h]
    exact h

theorem semicolonFix_count (f : List Char) : (semicolonFix f).2 = f.count ';' := by
  unfold semicolonFix
  by_cases h : ';' ∈ f
  · rw [if_pos h]
  · rw [if_neg h]
    dsimp only
    exact (List.count_eq_zero.mpr h).symm

theorem rdropSpace_isPrefix (x : List Char) : rdropSpace x <+: x := by
  unfold rdropSpace
  have hend : x.reverse.dropWhile isPySpace <:+ x.reverse := List.dropWhile_suffix _
  have h2 := List.reverse_prefix.mpr hend
  rwa [List.reverse_reverse] at h2

theorem rstripBrStep_isPrefix (s : List Char) : rstripBrStep s <+: s := by
  unfold rstripBrStep
  by_cases hsuf : ['<', 'b', 'r', '>'].isSuffixOf (rdropSpace s) = true
  · rw [if_pos hsuf]
    have htake := List.take_prefix ((rdropSpace s).length - 4) (rdropSpace s)
    exact ((rdropSpace_isPrefix _).trans htake).trans (rdropSpace_isPrefix s)
  · rw [if_neg hsuf]

theorem rstripBrFuel_isPrefix : ∀ (n : Nat) (s : List Char), rstripBrFuel n s <+: s := by
  intro n
  induction n with
  | zero => intro s; exact List.prefix_refl s
  | succ n ih =>
    intro s
    simp only [rstripBrFuel]
    by_cases h : rstripBrStep s = s
    · rw [if_pos h]
    · rw [if_neg h]
      exact (ih _).trans (rstripBrStep_isPrefix s)

theorem rstripBr_isPrefix (s : List Char) : rstripBr s <+: s :=
  rstripBrFuel_isPrefix _ _

theorem enum_mem_getD {α : Type} (l : List α) (d : α) (i : Nat) (hi : i < l.length) :
    (i, l.getD i d) ∈ l.enum := by
  have hi2 : i < l.enum.length := by simpa [List.enum_length] using hi
  have hmem : l.enum[i] ∈ l.enum := List.getElem_mem hi2
  rw [List.getElem_enum] at hmem
  rwa [← List.getD_eq_getElem l d hi] at hmem

/-- Counterexample to C7 as stated: in a comma-delimited file the detected
delimiter is the comma, yet a comma inside a field survives the whole
field processing untouched and nothing is counted or reported. -/
theorem c7_detected_delimiter_counterexample :
    detectDelimiter "a,b\nc,d".data = ','
    ∧ ',' ∈ processField "x,y".data
    ∧ semicolonTotal [["x,y"]] = 0
    ∧ semicolonReport [["x,y"]] = [] := by decide

/-- C7 amended: the second pass replaces every semicolon (the hard-coded
character, not the detected delimiter) by a colon in every field, counts
exactly the semicolon occurrences, and records a 1-based line/column entry
with a preview for every affected field. -/
theorem c7_semicolon_replacement :
    (∀ f : List Char, ';' ∉ (semicolonFix f).1)
    ∧ (∀ f : List Char, (semicolonFix f).2 = f.count ';')
    ∧ (∀ f : List Char, ';' ∉ processField f)
    ∧ (∀ (rows : List (List String)) (r c : Nat), r < rows.length →
        c < (rows.getD r []).length →
        ';' ∈ ((rows.getD r []).getD c "").data →
        (r + 1, c + 1,
          (⟨semicolonPreview ((rows.getD r []).getD c "").data⟩ : String))
          ∈ semicolonReport rows)
    ∧ (∀ rows : List (List String), semicolonTotal rows
        = (rows.map (fun row => (row.map (fun f => f.data.count ';')).sum)).sum) := by
  refine ⟨semicolonFix_no_semicolon, semicolonFix_count, fun f hm => ?_,
    fun rows r c hr hc hsem => ?_, fun rows => ?_⟩
  · exact semicolonFix_no_semicolon (normalizeBreaks f)
      ((rstripBr_isPrefix _).sublist.subset hm)
  · unfold semicolonReport
    apply List.mem_flatten.mpr
    refine ⟨(rows.getD r []).enum.filterMap (fun cf =>
        if ';' ∈ cf.2.data then
          some (r + 1, cf.1 + 1, (⟨semicolonPreview cf.2.data⟩ : String))
        else none), ?_, ?_⟩
    · exact List.mem_map.mpr ⟨(r, rows.getD r []), enum_mem_getD rows [] r hr, rfl⟩
    · apply List.mem_filterMap.mpr
      refine ⟨(c, (rows.getD r []).getD c ""), enum_mem_getD _ "" c hc, ?_⟩
      rw [if_pos hsem]
  · unfold semicolonTotal
    congr 1
    apply List.map_congr_left
    intro row _
    congr 1
    apply List.map_congr_left
    intro f _
    exact semicolonFix_count f.data

/-- Witness for C7 amended: a field containing a semicolon is recorded at
line 1, column 1 with its preview. -/
theorem c7_semicolon_replacement_witness :
    (1, 1, (⟨semicolonPreview ("a;b" : String).data⟩ : String))
      ∈ semicolonReport [["a;b"]] := by
  have h := c7_semicolon_replacement.2.2.2.1 [["a;b"]] 0 0
    (by decide) (by decide) (by decide)
  simpa using h
